import Mathlib

/-!
Verification of the line-oriented markdown editing engine
(`Royster0/markdown-editor`).

Raw text is modelled as `List Char` (one JS string = one list of
characters).  Each definition below is a shallow embedding of a function
of the TypeScript sources:

* `isLineInsideBlock`  — `src/lib/editor/editor-utils.ts`
* `handleEnterKey`, `handleBackspaceKey` — `src/lib/editor/editor-keys.ts`
  (the DOM mutations are modelled as a pure transformation of the line
  sequence; the caret set through the DOM selection is modelled as a
  `(lineIndex, rawOffset)` pair, clamped exactly where the source clamps
  with `Math.min` against the displayed text, which for a line in editing
  mode is its raw text)
* `handlePasteText`    — `src/lib/editor/editor-events.ts`
* `setEditorContent`, `getEditorContent`, `renderMarkdownBatch`,
  `escapeHtml`, `renderLatex` — `src/lib/rendering.ts`.

External collaborators (the Rust `render_markdown` backend and the KaTeX
typesetter) are passed in as explicit function parameters, mirroring the
`invoke`/`katex` calls of the source.
-/

namespace MdEditor

/-- JS whitespace for `trim`/`trimEnd` (the ASCII part of the `\s` class,
which is all the sources ever exercise). -/
def isWS (c : Char) : Bool :=
  c == ' ' || c == '\t' || c == '\n' || c == '\r' || c == '\x0b' || c == '\x0c'

/-- JS `String.prototype.trimEnd`: remove trailing whitespace. -/
def trimEnd : List Char → List Char
  | [] => []
  | c :: t =>
    match trimEnd t with
    | [] => if isWS c then [] else [c]
    | r => c :: r

/-- JS `String.prototype.trim`: remove leading and trailing whitespace. -/
def trim (l : List Char) : List Char :=
  trimEnd (l.dropWhile isWS)

/-- JS `String.prototype.startsWith` on character lists. -/
def startsWithChars : List Char → List Char → Bool
  | _, [] => true
  | [], _ :: _ => false
  | c :: cs, p :: ps => c == p && startsWithChars cs ps

/-- The code-fence delimiter, a line whose trimmed content starts with it
opens or closes a fenced code block. -/
def codeFenceMarker : List Char := "```".toList

/-- The math-block delimiter. -/
def mathFenceMarker : List Char := "$$".toList

/-- Test `trimmed.startsWith("```")` from `isLineInsideBlock`. -/
def isCodeFence (l : List Char) : Bool :=
  startsWithChars (trim l) codeFenceMarker

/-- Test `trimmed === "$$"` from `isLineInsideBlock`. -/
def isMathFence (l : List Char) : Bool :=
  trim l == mathFenceMarker

/-- The loop of `isLineInsideBlock`: walk the lines, counting down to the
target line, toggling `inCodeBlock` / `inMathBlock` at each delimiter
line.  When the countdown hits the target: a delimiter line returns
`false` immediately, any other line ends the walk with the current
toggles (the remaining iterations of the source loop cannot change the
flags before the loop exits). -/
def isLineInsideBlockAux : List (List Char) → Nat → Bool → Bool → Bool
  | [], _, inC, inM => inC || inM
  | l :: rest, i, inC, inM =>
    if isCodeFence l then
      match i with
      | 0 => false
      | n + 1 => isLineInsideBlockAux rest n (!inC) inM
    else if isMathFence l then
      match i with
      | 0 => false
      | n + 1 => isLineInsideBlockAux rest n inC (!inM)
    else
      match i with
      | 0 => inC || inM
      | n + 1 => isLineInsideBlockAux rest n inC inM

/-- Model of `isLineInsideBlock(lineIndex, allLines)` from
`src/lib/editor/editor-utils.ts` (defined for in-bounds indices; the JS
code would throw on an out-of-bounds index). -/
def isLineInsideBlock (lineIndex : Nat) (allLines : List (List Char)) : Bool :=
  isLineInsideBlockAux allLines lineIndex false false

/-- Parity of the number of code-fence lines in a prefix: the value of
the `inCodeBlock` toggle after scanning it from `false`. -/
def codeParity : List (List Char) → Bool
  | [] => false
  | l :: rest => xor (isCodeFence l) (codeParity rest)

/-- Parity of the number of math-fence lines in a prefix. -/
def mathParity : List (List Char) → Bool
  | [] => false
  | l :: rest => xor (isMathFence l) (mathParity rest)

theorem isMathFence_eq_false_of_isCodeFence {l : List Char}
    (h : isCodeFence l = true) : isMathFence l = false := by
  unfold isCodeFence at h
  unfold isMathFence
  rcases hbe : trim l == mathFenceMarker with _ | _
  · rfl
  · exfalso
    have heq : trim l = mathFenceMarker := by
      exact eq_of_beq hbe
    rw [heq] at h
    simp [mathFenceMarker, codeFenceMarker, startsWithChars] at h

theorem isCodeFence_eq_false_of_isMathFence {l : List Char}
    (h : isMathFence l = true) : isCodeFence l = false := by
  rcases hc : isCodeFence l with _ | _
  · rfl
  · rw [isMathFence_eq_false_of_isCodeFence hc] at h
    cases h

theorem codeParity_append (X Y : List (List Char)) :
    codeParity (X ++ Y) = xor (codeParity X) (codeParity Y) := by
  induction X with
  | nil => simp [codeParity]
  | cons l X ih =>
    simp [codeParity, ih, Bool.xor_assoc]

theorem mathParity_append (X Y : List (List Char)) :
    mathParity (X ++ Y) = xor (mathParity X) (mathParity Y) := by
  induction X with
  | nil => simp [mathParity]
  | cons l X ih =>
    simp [mathParity, ih, Bool.xor_assoc]

theorem codeParity_eq_false {X : List (List Char)}
    (h : ∀ l ∈ X, isCodeFence l = false) : codeParity X = false := by
  induction X with
  | nil => rfl
  | cons l X ih =>
    have h1 : isCodeFence l = false := h l (by simp)
    have h2 : codeParity X = false := ih (fun x hx => h x (by simp [hx]))
    simp [codeParity, h1, h2]

theorem mathParity_eq_false {X : List (List Char)}
    (h : ∀ l ∈ X, isMathFence l = false) : mathParity X = false := by
  induction X with
  | nil => rfl
  | cons l X ih =>
    have h1 : isMathFence l = false := h l (by simp)
    have h2 : mathParity X = false := ih (fun x hx => h x (by simp [hx]))
    simp [mathParity, h1, h2]

/-- Scanning past a prefix `Q` towards a later target just accumulates
the two toggles, by the parity of the fence lines of each kind seen in
`Q`. -/
theorem isLineInsideBlockAux_append (Q : List (List Char)) :
    ∀ (rest : List (List Char)) (n : Nat) (inC inM : Bool),
    isLineInsideBlockAux (Q ++ rest) (Q.length + n) inC inM =
      isLineInsideBlockAux rest n (xor inC (codeParity Q)) (xor inM (mathParity Q)) := by
  induction Q with
  | nil =>
    intro rest n inC inM
    simp [codeParity, mathParity]
  | cons l Q ih =>
    intro rest n inC inM
    have hlen : (l :: Q).length + n = (Q.length + n) + 1 := by
      simp [List.length_cons]
      omega
    rw [hlen]
    rcases hc : isCodeFence l with _ | _
    · rcases hm : isMathFence l with _ | _
      · show isLineInsideBlockAux (l :: (Q ++ rest)) ((Q.length + n) + 1) inC inM = _
        rw [isLineInsideBlockAux]
        simp only [hc, hm, Bool.false_eq_true, if_false]
        rw [ih rest n inC inM]
        simp [codeParity, mathParity, hc, hm]
      · show isLineInsideBlockAux (l :: (Q ++ rest)) ((Q.length + n) + 1) inC inM = _
        rw [isLineInsideBlockAux]
        simp only [hc, hm, Bool.false_eq_true, if_false, if_true]
        rw [ih rest n inC (!inM)]
        have harg : xor (!inM) (mathParity Q) = xor inM (mathParity (l :: Q)) := by
          cases inM <;> cases hq : mathParity Q <;> simp [mathParity, hm, hq]
        rw [harg]
        have harg2 : codeParity Q = codeParity (l :: Q) := by
          simp [codeParity, hc]
        rw [harg2]
    · show isLineInsideBlockAux (l :: (Q ++ rest)) ((Q.length + n) + 1) inC inM = _
      rw [isLineInsideBlockAux]
      simp only [hc, if_true]
      rw [ih rest n (!inC) inM]
      have hm : isMathFence l = false := isMathFence_eq_false_of_isCodeFence hc
      have harg : xor (!inC) (codeParity Q) = xor inC (codeParity (l :: Q)) := by
        cases inC <;> cases hq : codeParity Q <;> simp [codeParity, hc, hq]
      rw [harg]
      have harg2 : mathParity Q = mathParity (l :: Q) := by
        simp [mathParity, hm]
      rw [harg2]

/-- Value of the scan when the target line sits right after the prefix
`Q`: a fence line is a boundary and reports `false`; any other line
reports the accumulated toggles. -/
theorem isLineInsideBlockAux_target (Q : List (List Char))
    (t : List Char) (rest : List (List Char)) (inC inM : Bool) :
    isLineInsideBlockAux (Q ++ t :: rest) Q.length inC inM =
      if isCodeFence t || isMathFence t then false
      else (xor inC (codeParity Q) || xor inM (mathParity Q)) := by
  have h0 : Q.length = Q.length + 0 := rfl
  rw [h0, isLineInsideBlockAux_append Q (t :: rest) 0 inC inM]
  rcases hc : isCodeFence t with _ | _
  · rcases hm : isMathFence t with _ | _
    · simp [isLineInsideBlockAux, hc, hm]
    · simp [isLineInsideBlockAux, hc, hm]
  · simp [isLineInsideBlockAux, hc]

theorem list_decomp_of_getElem? {α : Type _} {l : List α} {m : Nat} {t : α}
    (h : l[m]? = some t) : l = l.take m ++ t :: l.drop (m + 1) := by
  have hm : m < l.length := by
    by_contra hc
    push_neg at hc
    rw [List.getElem?_eq_none hc] at h
    cases h
  have hsplit := List.take_append_drop m l
  rw [List.drop_eq_getElem_cons hm] at hsplit
  have ht : l[m] = t := by
    rw [List.getElem?_eq_getElem hm] at h
    exact Option.some.inj h
  rw [ht] at hsplit
  exact hsplit.symm

theorem length_take_of_getElem? {α : Type _} {l : List α} {m : Nat} {t : α}
    (h : l[m]? = some t) : (l.take m).length = m := by
  have hm : m < l.length := by
    by_contra hc
    push_neg at hc
    rw [List.getElem?_eq_none hc] at h
    cases h
  simp [List.length_take]
  omega

/-- C1: in a document that contains exactly two fence lines, both of the
same kind (modelled by the decomposition `A ++ f1 :: (B ++ f2 :: C)` with
`A`, `B`, `C` free of fence lines of either kind), every line strictly
between the two fence lines is reported inside a block, and the two fence
lines themselves are reported as not inside: a delimiter line is a
boundary, never part of the region it opens or closes. -/
theorem blockToggleTwoFences (A B C : List (List Char)) (f1 f2 : List Char)
    (hA : ∀ l ∈ A, isCodeFence l = false ∧ isMathFence l = false)
    (hB : ∀ l ∈ B, isCodeFence l = false ∧ isMathFence l = false)
    (hC : ∀ l ∈ C, isCodeFence l = false ∧ isMathFence l = false)
    (hkind : (isCodeFence f1 = true ∧ isCodeFence f2 = true) ∨
             (isMathFence f1 = true ∧ isMathFence f2 = true)) :
    isLineInsideBlock A.length (A ++ (f1 :: (B ++ (f2 :: C)))) = false
    ∧ isLineInsideBlock (A.length + 1 + B.length) (A ++ (f1 :: (B ++ (f2 :: C)))) = false
    ∧ ∀ m, m < B.length →
        isLineInsideBlock (A.length + 1 + m) (A ++ (f1 :: (B ++ (f2 :: C)))) = true := by
  have hf1 : (isCodeFence f1 || isMathFence f1) = true := by
    rcases hkind with ⟨h1, _⟩ | ⟨h1, _⟩ <;> simp [h1]
  have hf2 : (isCodeFence f2 || isMathFence f2) = true := by
    rcases hkind with ⟨_, h2⟩ | ⟨_, h2⟩ <;> simp [h2]
  refine ⟨?_, ?_, ?_⟩
  · unfold isLineInsideBlock
    rw [isLineInsideBlockAux_target A f1 (B ++ (f2 :: C)) false false]
    simp [hf1]
  · have hform : A ++ (f1 :: (B ++ (f2 :: C))) = (A ++ f1 :: B) ++ (f2 :: C) := by
      simp
    have hlen : A.length + 1 + B.length = (A ++ f1 :: B).length := by
      simp [List.length_append]
      omega
    rw [hform, hlen]
    unfold isLineInsideBlock
    rw [isLineInsideBlockAux_target (A ++ f1 :: B) f2 C false false]
    simp [hf2]
  · intro m hm
    have hget : B[m]? = some B[m] := List.getElem?_eq_getElem hm
    have hd := list_decomp_of_getElem? hget
    have hform : A ++ (f1 :: (B ++ (f2 :: C))) =
        (A ++ f1 :: B.take m) ++ (B[m] :: (B.drop (m + 1) ++ (f2 :: C))) := by
      conv_lhs => rw [hd]
      simp only [List.append_assoc, List.cons_append]
    have hlen : A.length + 1 + m = (A ++ f1 :: B.take m).length := by
      simp [List.length_append, length_take_of_getElem? hget]
      omega
    rw [hform, hlen]
    unfold isLineInsideBlock
    rw [isLineInsideBlockAux_target (A ++ f1 :: B.take m) B[m] _ false false]
    have hmemB : B[m] ∈ B := List.getElem?_mem hget
    have htc : isCodeFence B[m] = false := (hB _ hmemB).1
    have htm : isMathFence B[m] = false := (hB _ hmemB).2
    have hAc : codeParity A = false := codeParity_eq_false (fun l hl => (hA l hl).1)
    have hAm : mathParity A = false := mathParity_eq_false (fun l hl => (hA l hl).2)
    have hBc : codeParity (B.take m) = false :=
      codeParity_eq_false (fun l hl => (hB l (List.take_subset m B hl)).1)
    have hBm : mathParity (B.take m) = false :=
      mathParity_eq_false (fun l hl => (hB l (List.take_subset m B hl)).2)
    have hqc : codeParity (A ++ f1 :: B.take m) = isCodeFence f1 := by
      rw [codeParity_append]
      simp [codeParity, hAc, hBc]
    have hqm : mathParity (A ++ f1 :: B.take m) = isMathFence f1 := by
      rw [mathParity_append]
      simp [mathParity, hAm, hBm]
    simp only [htc, htm, Bool.or_self, Bool.false_eq_true, if_false, hqc, hqm,
      Bool.false_xor]
    rcases hkind with ⟨h1, _⟩ | ⟨h1, _⟩ <;> simp [h1]

/-- C1 witness: document `["intro", "` ``` `py", "x", "y", "` ``` `", "end"]`
has exactly two fence lines (both code fences, at indices 1 and 4); lines
2 and 3 are inside, the two fences are not. -/
theorem blockToggleTwoFences_witness :
    isLineInsideBlock 1
      ["intro".toList, "```py".toList, "x".toList, "y".toList, "```".toList,
        "end".toList] = false
    ∧ isLineInsideBlock 4
      ["intro".toList, "```py".toList, "x".toList, "y".toList, "```".toList,
        "end".toList] = false
    ∧ isLineInsideBlock 2
      ["intro".toList, "```py".toList, "x".toList, "y".toList, "```".toList,
        "end".toList] = true
    ∧ isLineInsideBlock 3
      ["intro".toList, "```py".toList, "x".toList, "y".toList, "```".toList,
        "end".toList] = true := by
  have h := blockToggleTwoFences ["intro".toList] ["x".toList, "y".toList]
    ["end".toList] ("```py".toList) ("```".toList)
    (by decide) (by decide) (by decide) (Or.inl (by decide))
  refine ⟨h.1, h.2.1, ?_, ?_⟩
  · exact h.2.2 0 (by decide)
  · exact h.2.2 1 (by decide)

/-- C7 counterexample: the document `["` ``` `", "$$"]` contains an odd
number (one) of code-fence markers, and line 1 lies after that last
unmatched marker and contains no code-fence marker itself; yet
`isLineInsideBlock` reports line 1 as NOT inside, because line 1 is a
math-fence line and any fence line returns `false`.  The claim as stated
("every line after the last unmatched fence marker is reported as
inside") therefore fails on the code. -/
theorem unterminatedFence_counterexample :
    codeParity ["```".toList, "$$".toList] = true
    ∧ isCodeFence ("$$".toList) = false
    ∧ isLineInsideBlock 1 ["```".toList, "$$".toList] = false := by
  decide

/-- C7 (amended): in a document `P ++ f :: S` where `f` is an unmatched
fence marker of one kind (even count of that kind in `P`, none in `S`, so
the whole document has an odd count and `f` is the last marker), every
line after `f` that is not itself a fence line of either kind is reported
as inside the block for the remainder of the document. -/
theorem unterminatedFenceTrailingInside (P S : List (List Char)) (f t : List Char)
    (m : Nat) (hm : S[m]? = some t)
    (ht : isCodeFence t = false ∧ isMathFence t = false)
    (hkind : (isCodeFence f = true ∧ codeParity P = false ∧
                ∀ l ∈ S, isCodeFence l = false)
           ∨ (isMathFence f = true ∧ mathParity P = false ∧
                ∀ l ∈ S, isMathFence l = false)) :
    isLineInsideBlock (P.length + 1 + m) (P ++ (f :: S)) = true := by
  have hd := list_decomp_of_getElem? hm
  have hform : P ++ (f :: S) =
      (P ++ f :: S.take m) ++ (t :: S.drop (m + 1)) := by
    conv_lhs => rw [hd]
    simp
  have hlen : P.length + 1 + m = (P ++ f :: S.take m).length := by
    simp [List.length_append, length_take_of_getElem? hm]
    omega
  rw [hform, hlen]
  unfold isLineInsideBlock
  rw [isLineInsideBlockAux_target (P ++ f :: S.take m) t _ false false]
  simp only [ht.1, ht.2, Bool.or_self, Bool.false_eq_true, if_false, Bool.false_xor]
  rcases hkind with ⟨hf, hP, hS⟩ | ⟨hf, hP, hS⟩
  · have hSc : codeParity (S.take m) = false :=
      codeParity_eq_false (fun l hl => hS l (List.take_subset m S hl))
    have hqc : codeParity (P ++ f :: S.take m) = true := by
      rw [codeParity_append]
      simp [codeParity, hP, hSc, hf]
    simp [hqc]
  · have hSm : mathParity (S.take m) = false :=
      mathParity_eq_false (fun l hl => hS l (List.take_subset m S hl))
    have hqm : mathParity (P ++ f :: S.take m) = true := by
      rw [mathParity_append]
      simp [mathParity, hP, hSm, hf]
    simp [hqm]

/-- C7 witness, the spec scenario: document `["` ``` `python", "code line"]`
has one (unmatched) code fence at line 0; line 1 is inside the block. -/
theorem unterminatedFenceTrailingInside_witness :
    isLineInsideBlock 1 ["```python".toList, "code line".toList] = true := by
  have h := unterminatedFenceTrailingInside [] ["code line".toList]
    ("```python".toList) ("code line".toList) 0 (by decide) (by decide)
    (Or.inl ⟨by decide, by decide, by decide⟩)
  exact h

/-- C10: a line whose trimmed content starts with "```" or equals "$$" is
always reported as not inside, no matter what blocks the preceding lines
leave open; and such a line still toggles its own kind while inside the
other kind's block, so the two detections are not independent: in
`["$$", "` ``` `", "$$", "x"]` line 1 is a boundary (not math-block
content), and line 3 is inside the code block that line 1 opened within
the math block. -/
theorem fenceLineIsBoundary :
    (∀ (ls : List (List Char)) (i : Nat) (t : List Char), ls[i]? = some t →
       (isCodeFence t || isMathFence t) = true → isLineInsideBlock i ls = false)
    ∧ isLineInsideBlock 1
        ["$$".toList, "```".toList, "$$".toList, "x".toList] = false
    ∧ isLineInsideBlock 3
        ["$$".toList, "```".toList, "$$".toList, "x".toList] = true := by
  refine ⟨?_, by decide, by decide⟩
  intro ls i t hget hfence
  have hd := list_decomp_of_getElem? hget
  have hlen : i = (ls.take i).length := (length_take_of_getElem? hget).symm
  have key := isLineInsideBlockAux_target (ls.take i) t (ls.drop (i + 1)) false false
  rw [← hd, ← hlen] at key
  unfold isLineInsideBlock
  rw [key]
  simp [hfence]

/-- C10 witness: the general boundary fact applied to a concrete
document whose line 1 is a code fence below an open math block. -/
theorem fenceLineIsBoundary_witness :
    (["$$".toList, "```".toList, "z".toList])[1]? = some ("```".toList)
    ∧ isLineInsideBlock 1 ["$$".toList, "```".toList, "z".toList] = false := by
  refine ⟨by decide, ?_⟩
  exact fenceLineIsBoundary.1 _ 1 ("```".toList) (by decide) (by decide)

/-- Prepend a character to the first piece of a split (the accumulating
step of a JS-style `split`). -/
def withHead (c : Char) : List (List Char) → List (List Char)
  | [] => [[c]]
  | h :: t => (c :: h) :: t

/-- JS `text.split(/\r?\n/)`: break at each `\n`, also consuming an
immediately preceding `\r`. -/
def splitCRLF : List Char → List (List Char)
  | [] => [[]]
  | [c] => if c = '\n' then [[], []] else [[c]]
  | c :: c2 :: t =>
    if c = '\n' then [] :: splitCRLF (c2 :: t)
    else if c = '\r' ∧ c2 = '\n' then [] :: splitCRLF t
    else withHead c (splitCRLF (c2 :: t))

/-- JS `text.split("\n")`: break at each `\n` only. -/
def splitLF : List Char → List (List Char)
  | [] => [[]]
  | c :: t =>
    if c = '\n' then [] :: splitLF t
    else withHead c (splitLF t)

/-- JS `pieces.join("\n")`. -/
def joinLines : List (List Char) → List Char
  | [] => []
  | [l] => l
  | l :: rest => l ++ '\n' :: joinLines rest

theorem joinLines_cons (a : List Char) (X : List (List Char)) (h : X ≠ []) :
    joinLines (a :: X) = a ++ '\n' :: joinLines X := by
  cases X with
  | nil => exact absurd rfl h
  | cons x xs => rfl

theorem joinLines_withHead (c : Char) (X : List (List Char)) (hX : X ≠ []) :
    joinLines (withHead c X) = c :: joinLines X := by
  cases X with
  | nil => exact absurd rfl hX
  | cons x xs =>
    cases xs with
    | nil => rfl
    | cons y ys => rfl

theorem splitLF_ne_nil (t : List Char) : splitLF t ≠ [] := by
  induction t with
  | nil => simp [splitLF]
  | cons c t ih =>
    by_cases hc : c = '\n'
    · simp [splitLF, hc]
    · simp only [splitLF, hc, if_false]
      cases hs : splitLF t with
      | nil => exact absurd hs ih
      | cons x xs => simp [withHead]

theorem splitCRLF_ne_nil (t : List Char) : splitCRLF t ≠ [] := by
  induction t using splitCRLF.induct with
  | case1 => simp [splitCRLF]
  | case2 => simp [splitCRLF]
  | case3 c hc => simp [splitCRLF, hc]
  | case4 c2 t ih => simp [splitCRLF]
  | case5 c c2 t hc hcr ih => simp [splitCRLF, hc, hcr]
  | case6 c c2 t hc hcr ih =>
    simp only [splitCRLF, hc, hcr, if_false]
    cases hs : splitCRLF (c2 :: t) with
    | nil => exact absurd hs ih
    | cons x xs => simp [withHead]

theorem trimEnd_cons_of_eq_nil {t : List Char} (c : Char) (h : trimEnd t = []) :
    trimEnd (c :: t) = if isWS c then [] else [c] := by
  show (match trimEnd t with
        | [] => if isWS c then [] else [c]
        | r => c :: r) = if isWS c then [] else [c]
  rw [h]

theorem trimEnd_cons_of_ne_nil {t : List Char} (c : Char) (h : trimEnd t ≠ []) :
    trimEnd (c :: t) = c :: trimEnd t := by
  show (match trimEnd t with
        | [] => if isWS c then [] else [c]
        | r => c :: r) = c :: trimEnd t
  cases ht : trimEnd t with
  | nil => exact absurd ht h
  | cons a r => rfl

theorem trimEnd_cons_congr {t1 t2 : List Char} (c : Char)
    (h : trimEnd t1 = trimEnd t2) : trimEnd (c :: t1) = trimEnd (c :: t2) := by
  by_cases h1 : trimEnd t1 = []
  · rw [trimEnd_cons_of_eq_nil c h1, trimEnd_cons_of_eq_nil c (h ▸ h1)]
  · rw [trimEnd_cons_of_ne_nil c h1, trimEnd_cons_of_ne_nil c (h ▸ h1), h]

theorem map_trimEnd_withHead (c : Char) (X Y : List (List Char))
    (hX : X ≠ []) (hY : Y ≠ [])
    (h : X.map trimEnd = Y.map trimEnd) :
    (withHead c X).map trimEnd = (withHead c Y).map trimEnd := by
  cases X with
  | nil => exact absurd rfl hX
  | cons x xs =>
    cases Y with
    | nil => exact absurd rfl hY
    | cons y ys =>
      simp only [List.map_cons, List.cons.injEq] at h
      simp only [withHead, List.map_cons, List.cons.injEq]
      exact ⟨trimEnd_cons_congr c h.1, h.2⟩

/-- Splitting on `/\r?\n/` and then trimming trailing whitespace of each
piece gives the same pieces as splitting on `"\n"` alone and trimming:
the `\r` of a `\r\n` pair sits at the end of its `"\n"`-piece and is
itself trailing whitespace. -/
theorem map_trimEnd_splitCRLF (t : List Char) :
    (splitCRLF t).map trimEnd = (splitLF t).map trimEnd := by
  induction t using splitCRLF.induct with
  | case1 => rfl
  | case2 => simp [splitCRLF, splitLF, withHead]
  | case3 c hc => simp [splitCRLF, splitLF, hc, withHead]
  | case4 c2 t ih =>
    have h1 : splitCRLF ('\n' :: c2 :: t) = [] :: splitCRLF (c2 :: t) := by
      simp [splitCRLF]
    have h2 : splitLF ('\n' :: c2 :: t) = [] :: splitLF (c2 :: t) := by
      simp [splitLF]
    rw [h1, h2, List.map_cons, List.map_cons, ih]
  | case5 c c2 t hc hcr ih =>
    obtain ⟨hr, hn⟩ := hcr
    subst hr hn
    have h1 : splitCRLF ('\r' :: '\n' :: t) = [] :: splitCRLF t := by
      simp [splitCRLF]
    have h2 : splitLF ('\r' :: '\n' :: t) = ['\r'] :: splitLF t := by
      have ha : splitLF ('\n' :: t) = [] :: splitLF t := by simp [splitLF]
      have hb : splitLF ('\r' :: '\n' :: t) = withHead '\r' (splitLF ('\n' :: t)) := by
        simp [splitLF]
      rw [hb, ha]
      rfl
    rw [h1, h2, List.map_cons, List.map_cons, ih]
    have h3 : trimEnd ['\r'] = ([] : List Char) := by decide
    have h4 : trimEnd [] = ([] : List Char) := rfl
    rw [h3, h4]
  | case6 c c2 t hc hcr ih =>
    have hsplit : splitCRLF (c :: c2 :: t) = withHead c (splitCRLF (c2 :: t)) := by
      simp [splitCRLF, hc, hcr]
    have hlf : splitLF (c :: c2 :: t) = withHead c (splitLF (c2 :: t)) := by
      simp [splitLF, hc]
    rw [hsplit, hlf]
    exact map_trimEnd_withHead c _ _ (splitCRLF_ne_nil (c2 :: t))
      (splitLF_ne_nil (c2 :: t)) ih

theorem joinLines_splitLF (t : List Char) : joinLines (splitLF t) = t := by
  induction t with
  | nil => rfl
  | cons c t ih =>
    by_cases hc : c = '\n'
    · subst hc
      simp only [splitLF, if_true]
      rw [joinLines_cons [] (splitLF t) (splitLF_ne_nil t), ih]
      rfl
    · simp only [splitLF, hc, if_false]
      rw [joinLines_withHead c (splitLF t) (splitLF_ne_nil t), ih]

theorem map_trimEnd_eq_self {X : List (List Char)}
    (h : ∀ l ∈ X, trimEnd l = l) : X.map trimEnd = X := by
  induction X with
  | nil => rfl
  | cons x xs ih =>
    simp only [List.map_cons, h x (by simp), List.cons.injEq, true_and]
    exact ih (fun l hl => h l (by simp [hl]))

/-- One editor line: the `div.editor-line` element, with its position
(`data-line`), its authoritative markdown source (`data-raw`), its
current display markup (`innerHTML`) and its `editing` class. -/
structure Line where
  index : Nat
  raw : List Char
  rendered : List Char
  editing : Bool
deriving DecidableEq

/-- A render collaborator: raw text and an is-editing flag to display
markup (the Rust `render_markdown` backend plus LaTeX post-processing,
treated as an opaque pure function). -/
def RenderFn : Type := List Char → Bool → List Char

/-- The identity render collaborator, used to instantiate theorems on
concrete documents. -/
def idRender : RenderFn := fun r _ => r

/-- The line-building loop of `setEditorContent`: one `div` per piece,
`data-raw` the trimmed piece, `data-line` the running index, rendered by
the backend with `is_editing = false`, no `editing` class. -/
def buildLines (render : RenderFn) : Nat → List (List Char) → List Line
  | _, [] => []
  | i, r :: rest =>
    { index := i, raw := r, rendered := render r false, editing := false } ::
      buildLines render (i + 1) rest

/-- Model of `setEditorContent(text)` from `src/lib/rendering.ts`: split the text
on `/\r?\n/`, strip trailing whitespace from every line (`trimEnd`), and
build one editor line per piece. -/
def setEditorContent (render : RenderFn) (text : List Char) : List Line :=
  buildLines render 0 ((splitCRLF text).map trimEnd)

/-- Model of `getAllLines()`: the `data-raw` attribute of every line, in order. -/
def getAllLines (lines : List Line) : List (List Char) :=
  lines.map Line.raw

/-- Model of `getEditorContent()`: the raw lines joined with `"\n"`. -/
def getEditorContent (lines : List Line) : List Char :=
  joinLines (getAllLines lines)

theorem getAllLines_buildLines (render : RenderFn) :
    ∀ (i : Nat) (ls : List (List Char)), getAllLines (buildLines render i ls) = ls := by
  intro i ls
  induction ls generalizing i with
  | nil => rfl
  | cons r rest ih =>
    simp [buildLines, getAllLines] at ih ⊢
    exact ih (i + 1)

/-- C5: loading a text `T` and reading the content back yields exactly
`T` with the trailing whitespace of each of its `"\n"`-separated lines
removed — and so, when no line of `T` ends in whitespace (which also
rules out `"\r\n"` endings), the round trip is the identity: per-line
trailing whitespace is the only information the load/read cycle loses. -/
theorem editorContentRoundTrip (render : RenderFn) (T : List Char) :
    getEditorContent (setEditorContent render T) =
      joinLines ((splitLF T).map trimEnd)
    ∧ ((∀ l ∈ splitLF T, trimEnd l = l) →
        getEditorContent (setEditorContent render T) = T) := by
  have h1 : getEditorContent (setEditorContent render T) =
      joinLines ((splitCRLF T).map trimEnd) := by
    unfold getEditorContent setEditorContent
    rw [getAllLines_buildLines]
  have h2 : getEditorContent (setEditorContent render T) =
      joinLines ((splitLF T).map trimEnd) := by
    rw [h1, map_trimEnd_splitCRLF]
  refine ⟨h2, fun h => ?_⟩
  rw [h2, map_trimEnd_eq_self h, joinLines_splitLF]

/-- C5 witness: the round trip applied to `"ab \ncd\r\nef"` trims the
trailing blank of line 0 and the `\r` of line 1, and is the identity on
the trailing-whitespace-free text `"ab\ncd"`. -/
theorem editorContentRoundTrip_witness :
    getEditorContent (setEditorContent idRender ("ab \ncd\r\nef".toList)) =
      joinLines ((splitLF ("ab \ncd\r\nef".toList)).map trimEnd)
    ∧ getEditorContent (setEditorContent idRender ("ab\ncd".toList)) =
        "ab\ncd".toList := by
  exact ⟨(editorContentRoundTrip idRender ("ab \ncd\r\nef".toList)).1,
    (editorContentRoundTrip idRender ("ab\ncd".toList)).2 (by decide)⟩

/-- Model of `escapeHtml` from `src/lib/rendering.ts`: the DOM
`textContent`/`innerHTML` trick escapes exactly `&`, `<` and `>`. -/
def escapeHtml : List Char → List Char
  | [] => []
  | c :: t =>
    (if c = '&' then "&amp;".toList
     else if c = '<' then "&lt;".toList
     else if c = '>' then "&gt;".toList
     else [c]) ++ escapeHtml t

/-- The payload of one backend render call (`RenderRequest` in
`src/lib/core/types.ts`). -/
structure RenderRequest where
  line : List Char
  line_index : Nat
  all_lines : List (List Char)
  is_editing : Bool
deriving DecidableEq

/-- The backend's per-line result (`LineRenderResult`). -/
structure LineRenderResult where
  html : List Char
  is_code_block_boundary : Bool
deriving DecidableEq

/-- Model of `renderMarkdownBatch` from `src/lib/rendering.ts`.  The
`invoke("render_markdown_batch")` call is the `backend` parameter; a
rejected promise is `Except.error`.  On success each non-editing line is
post-processed by `renderLatexInHtml` (the `post` parameter); the source
pairs `results[index]` with `requests[index]`, which `zipWith` models
under the backend's one-result-per-request contract.  On failure the
whole batch degrades: one result per request, in request order, holding
the HTML-escaped raw line and a `false` boundary flag.  The function is
total: it always returns a list, never an exception. -/
def renderMarkdownBatch (backend : List RenderRequest → Except Unit (List LineRenderResult))
    (post : List Char → List Char) (requests : List RenderRequest) :
    List LineRenderResult :=
  match backend requests with
  | Except.ok results =>
    List.zipWith
      (fun (r : LineRenderResult) (req : RenderRequest) =>
        { r with html := if req.is_editing then r.html else post r.html })
      results requests
  | Except.error _ =>
    requests.map (fun req => { html := escapeHtml req.line, is_code_block_boundary := false })

/-- C6: when the batch render fails, every request degrades to the
HTML-escaped raw text of its line with the boundary flag `false`; the
returned list still has one result per request, in input order, and the
call itself returns normally (the model is a total function). -/
theorem renderMarkdownBatchDegrades
    (backend : List RenderRequest → Except Unit (List LineRenderResult))
    (post : List Char → List Char) (requests : List RenderRequest)
    (hfail : backend requests = Except.error ()) :
    (renderMarkdownBatch backend post requests).length = requests.length
    ∧ ∀ i : Nat, (renderMarkdownBatch backend post requests)[i]? =
        (requests[i]?).map
          (fun req => { html := escapeHtml req.line, is_code_block_boundary := false }) := by
  unfold renderMarkdownBatch
  rw [hfail]
  constructor
  · simp
  · intro i
    simp

/-- C6 witness: a failing backend on a one-request batch yields the
escaped raw line `"a<b&c"` with boundary flag `false`. -/
theorem renderMarkdownBatchDegrades_witness :
    (renderMarkdownBatch (fun _ => Except.error ()) id
        [⟨"a<b&c".toList, 0, ["a<b&c".toList], false⟩]).length = 1
    ∧ (renderMarkdownBatch (fun _ => Except.error ()) id
        [⟨"a<b&c".toList, 0, ["a<b&c".toList], false⟩])[0]? =
        some ⟨"a&lt;b&amp;c".toList, false⟩ := by
  have h := renderMarkdownBatchDegrades (fun _ => Except.error ()) id
    [⟨"a<b&c".toList, 0, ["a<b&c".toList], false⟩] rfl
  refine ⟨h.1, ?_⟩
  rw [h.2 0]
  decide

/-- Replace the element at a position (out-of-range: no change). -/
def setAt {α : Type _} : Nat → α → List α → List α
  | _, _, [] => []
  | 0, a, _ :: xs => a :: xs
  | n + 1, a, x :: xs => x :: setAt n a xs

/-- Insert an element before a position (`insertBefore`; at or past the
end this is `appendChild`). -/
def insertAt {α : Type _} : Nat → α → List α → List α
  | 0, a, l => a :: l
  | _ + 1, a, [] => [a]
  | n + 1, a, x :: xs => x :: insertAt n a xs

/-- Remove the element at a position (`removeChild`). -/
def eraseAt {α : Type _} : Nat → List α → List α
  | _, [] => []
  | 0, _ :: xs => xs
  | n + 1, x :: xs => x :: eraseAt n xs

/-- Apply an index-aware update to every element (the re-render /
renumber loops of the key handlers). -/
def updateFrom {α : Type _} (f : Nat → α → α) : Nat → List α → List α
  | _, [] => []
  | base, x :: xs => f base x :: updateFrom f (base + 1) xs

theorem length_setAt {α : Type _} (n : Nat) (a : α) (l : List α) :
    (setAt n a l).length = l.length := by
  induction l generalizing n with
  | nil => cases n <;> rfl
  | cons x xs ih =>
    cases n with
    | zero => rfl
    | succ n => simp [setAt, ih]

theorem getElem?_setAt_self {α : Type _} {n : Nat} {l : List α} (a : α)
    (h : n < l.length) : (setAt n a l)[n]? = some a := by
  induction l generalizing n with
  | nil => simp at h
  | cons x xs ih =>
    cases n with
    | zero => simp [setAt]
    | succ n =>
      simp only [setAt]
      rw [List.getElem?_cons_succ]
      exact ih (by simpa using h)

theorem getElem?_setAt_ne {α : Type _} {m n : Nat} (a : α) (l : List α)
    (h : m ≠ n) : (setAt n a l)[m]? = l[m]? := by
  induction l generalizing m n with
  | nil => cases n <;> rfl
  | cons x xs ih =>
    cases n with
    | zero =>
      cases m with
      | zero => exact absurd rfl h
      | succ m => simp [setAt]
    | succ n =>
      cases m with
      | zero => simp [setAt]
      | succ m =>
        simp only [setAt]
        rw [List.getElem?_cons_succ, List.getElem?_cons_succ]
        exact ih (by omega)

theorem setAt_of_getElem? {α : Type _} {n : Nat} {a : α} {l : List α}
    (h : l[n]? = some a) : setAt n a l = l := by
  induction l generalizing n with
  | nil => cases n <;> rfl
  | cons x xs ih =>
    cases n with
    | zero =>
      simp only [List.getElem?_cons_zero] at h
      simp [setAt, Option.some.inj h]
    | succ n =>
      rw [List.getElem?_cons_succ] at h
      simp [setAt, ih h]

theorem map_setAt {α β : Type _} (f : α → β) (n : Nat) (a : α) (l : List α) :
    (setAt n a l).map f = setAt n (f a) (l.map f) := by
  induction l generalizing n with
  | nil => cases n <;> rfl
  | cons x xs ih =>
    cases n with
    | zero => rfl
    | succ n => simp [setAt, ih]

theorem setAt_setAt {α : Type _} (n : Nat) (a b : α) (l : List α) :
    setAt n b (setAt n a l) = setAt n b l := by
  induction l generalizing n with
  | nil => cases n <;> rfl
  | cons x xs ih =>
    cases n with
    | zero => rfl
    | succ n => simp [setAt, ih]

theorem length_insertAt {α : Type _} {n : Nat} (a : α) {l : List α}
    (h : n ≤ l.length) : (insertAt n a l).length = l.length + 1 := by
  induction l generalizing n with
  | nil =>
    cases n with
    | zero => rfl
    | succ n => simp at h
  | cons x xs ih =>
    cases n with
    | zero => rfl
    | succ n => simp [insertAt, ih (by simpa using h)]

theorem getElem?_insertAt_lt {α : Type _} {m n : Nat} (a : α) {l : List α}
    (h : m < n) (hn : n ≤ l.length) : (insertAt n a l)[m]? = l[m]? := by
  induction l generalizing m n with
  | nil =>
    cases n with
    | zero => simp at h
    | succ n => simp at hn
  | cons x xs ih =>
    cases n with
    | zero => simp at h
    | succ n =>
      cases m with
      | zero => simp [insertAt]
      | succ m =>
        simp only [insertAt]
        rw [List.getElem?_cons_succ, List.getElem?_cons_succ]
        exact ih (by omega) (by simpa using hn)

theorem getElem?_insertAt_self {α : Type _} {n : Nat} (a : α) {l : List α}
    (h : n ≤ l.length) : (insertAt n a l)[n]? = some a := by
  induction l generalizing n with
  | nil =>
    cases n with
    | zero => simp [insertAt]
    | succ n => simp at h
  | cons x xs ih =>
    cases n with
    | zero => simp [insertAt]
    | succ n =>
      simp only [insertAt]
      rw [List.getElem?_cons_succ]
      exact ih (by simpa using h)

theorem getElem?_insertAt_gt {α : Type _} {m n : Nat} (a : α) (l : List α)
    (h : n < m) : (insertAt n a l)[m]? = l[m - 1]? := by
  induction l generalizing m n with
  | nil =>
    cases n with
    | zero =>
      cases m with
      | zero => simp at h
      | succ m => simp [insertAt]
    | succ n =>
      cases m with
      | zero => simp at h
      | succ m =>
        simp only [insertAt]
        rw [List.getElem?_cons_succ]
        cases m with
        | zero => simp at h
        | succ m => simp
  | cons x xs ih =>
    cases n with
    | zero =>
      cases m with
      | zero => simp at h
      | succ m => simp [insertAt]
    | succ n =>
      cases m with
      | zero => simp at h
      | succ m =>
        simp only [insertAt]
        rw [List.getElem?_cons_succ]
        rw [ih (by omega)]
        cases m with
        | zero => simp at h
        | succ m =>
          have h1 : m + 1 - 1 = m := by omega
          have h2 : m + 1 + 1 - 1 = m + 1 := by omega
          rw [h1, h2, List.getElem?_cons_succ]

theorem map_insertAt {α β : Type _} (f : α → β) (n : Nat) (a : α) (l : List α) :
    (insertAt n a l).map f = insertAt n (f a) (l.map f) := by
  induction l generalizing n with
  | nil =>
    cases n <;> rfl
  | cons x xs ih =>
    cases n with
    | zero => rfl
    | succ n => simp [insertAt, ih]

theorem eraseAt_insertAt {α : Type _} {n : Nat} (a : α) {l : List α}
    (h : n ≤ l.length) : eraseAt n (insertAt n a l) = l := by
  induction l generalizing n with
  | nil =>
    cases n with
    | zero => rfl
    | succ n => simp at h
  | cons x xs ih =>
    cases n with
    | zero => rfl
    | succ n => simp [insertAt, eraseAt, ih (by simpa using h)]

theorem setAt_insertAt_lt {α : Type _} {m n : Nat} (a b : α) {l : List α}
    (h : m < n) (hn : n ≤ l.length) :
    setAt m b (insertAt n a l) = insertAt n a (setAt m b l) := by
  induction l generalizing m n with
  | nil =>
    cases n with
    | zero => simp at h
    | succ n => simp at hn
  | cons x xs ih =>
    cases n with
    | zero => simp at h
    | succ n =>
      cases m with
      | zero => simp [insertAt, setAt]
      | succ m =>
        simp only [insertAt, setAt, List.cons.injEq, true_and]
        exact ih (by omega) (by simpa using hn)

theorem map_eraseAt {α β : Type _} (f : α → β) (n : Nat) (l : List α) :
    (eraseAt n l).map f = eraseAt n (l.map f) := by
  induction l generalizing n with
  | nil => cases n <;> rfl
  | cons x xs ih =>
    cases n with
    | zero => rfl
    | succ n => simp [eraseAt, ih]

theorem length_eraseAt {α : Type _} {n : Nat} {l : List α}
    (h : n < l.length) : (eraseAt n l).length + 1 = l.length := by
  induction l generalizing n with
  | nil => simp at h
  | cons x xs ih =>
    cases n with
    | zero => rfl
    | succ n => simp [eraseAt, ih (by simpa using h)]

theorem getElem?_eraseAt_lt {α : Type _} {m n : Nat} (l : List α)
    (h : m < n) : (eraseAt n l)[m]? = l[m]? := by
  induction l generalizing m n with
  | nil => cases n <;> rfl
  | cons x xs ih =>
    cases n with
    | zero => simp at h
    | succ n =>
      cases m with
      | zero => simp [eraseAt]
      | succ m =>
        simp only [eraseAt]
        rw [List.getElem?_cons_succ, List.getElem?_cons_succ]
        exact ih (by omega)

theorem getElem?_eraseAt_ge {α : Type _} {m n : Nat} (l : List α)
    (h : n ≤ m) : (eraseAt n l)[m]? = l[m + 1]? := by
  induction l generalizing m n with
  | nil => cases n <;> rfl
  | cons x xs ih =>
    cases n with
    | zero => simp [eraseAt]
    | succ n =>
      cases m with
      | zero => simp at h
      | succ m =>
        simp only [eraseAt]
        rw [List.getElem?_cons_succ, List.getElem?_cons_succ]
        exact ih (by omega)

theorem length_updateFrom {α : Type _} (f : Nat → α → α) (base : Nat) (l : List α) :
    (updateFrom f base l).length = l.length := by
  induction l generalizing base with
  | nil => rfl
  | cons x xs ih => simp [updateFrom, ih]

theorem getElem?_updateFrom {α : Type _} (f : Nat → α → α) (base m : Nat) (l : List α) :
    (updateFrom f base l)[m]? = (l[m]?).map (f (base + m)) := by
  induction l generalizing base m with
  | nil => rfl
  | cons x xs ih =>
    cases m with
    | zero => simp [updateFrom]
    | succ m =>
      simp only [updateFrom]
      rw [List.getElem?_cons_succ, List.getElem?_cons_succ, ih (base + 1) m]
      have : base + 1 + m = base + (m + 1) := by omega
      rw [this]

theorem map_updateFrom {α β : Type _} {f : Nat → α → α} (g : α → β)
    (h : ∀ i x, g (f i x) = g x) (base : Nat) (l : List α) :
    (updateFrom f base l).map g = l.map g := by
  induction l generalizing base with
  | nil => rfl
  | cons x xs ih => simp [updateFrom, h, ih]

/-- Result of an edit gesture: the new line sequence and the caret
position `(lineIndex, rawOffset)` set at the end of the handler. -/
structure EditResult where
  lines : List Line
  cursorLine : Nat
  cursorOffset : Nat
deriving DecidableEq

/-- Every line's `data-line` equals its position, counting from `base`. -/
def wellIndexedFrom : Nat → List Line → Bool
  | _, [] => true
  | i, l :: rest => (l.index == i) && wellIndexedFrom (i + 1) rest

/-- The Document invariant: `data-line` equals the DOM position. -/
def wellIndexed (lines : List Line) : Bool :=
  wellIndexedFrom 0 lines

theorem wellIndexedFrom_iff (l : List Line) :
    ∀ base : Nat, wellIndexedFrom base l = true ↔
      ∀ (p : Nat) (x : Line), l[p]? = some x → x.index = base + p := by
  induction l with
  | nil =>
    intro base
    constructor
    · intro _ p x hx
      simp at hx
    · intro _
      rfl
  | cons y ys ih =>
    intro base
    simp only [wellIndexedFrom, Bool.and_eq_true, beq_iff_eq]
    constructor
    · rintro ⟨h1, h2⟩ p x hx
      cases p with
      | zero =>
        simp only [List.getElem?_cons_zero] at hx
        rw [← Option.some.inj hx]
        simpa using h1
      | succ p =>
        rw [List.getElem?_cons_succ] at hx
        have := ((ih (base + 1)).mp h2) p x hx
        omega
    · intro h
      refine ⟨by simpa using h 0 y (by simp), (ih (base + 1)).mpr ?_⟩
      intro p x hx
      have := h (p + 1) x (by rw [List.getElem?_cons_succ]; exact hx)
      omega

theorem wellIndexed_iff (l : List Line) :
    wellIndexed l = true ↔ ∀ (p : Nat) (x : Line), l[p]? = some x → x.index = p := by
  unfold wellIndexed
  rw [wellIndexedFrom_iff]
  constructor
  · intro h p x hx
    have := h p x hx
    omega
  · intro h p x hx
    have := h p x hx
    omega

theorem lt_length_of_getElem? {α : Type _} {l : List α} {n : Nat} {a : α}
    (h : l[n]? = some a) : n < l.length := by
  by_contra hc
  push_neg at hc
  rw [List.getElem?_eq_none hc] at h
  cases h

/-- The renumber loop of `handleEnterKey`: `data-line := i` for every
position from `lineIdx + 2` on. -/
def enterRenumber (lineIdx : Nat) : Nat → Line → Line :=
  fun pos l => if lineIdx + 2 ≤ pos then { l with index := pos } else l

/-- The batch re-render loop of `handleEnterKey`: every line from
`lineIdx` on gets fresh markup, and the `editing` class exactly on the
new line `lineIdx + 1`. -/
def enterRerender (render : RenderFn) (lineIdx : Nat) : Nat → Line → Line :=
  fun pos l =>
    if lineIdx ≤ pos then
      { l with editing := pos == lineIdx + 1,
               rendered := render l.raw (pos == lineIdx + 1) }
    else l

/-- The line sequence after `handleEnterKey` on line `cur` at position
`lineIdx` with the caret at raw offset `k`: the current line keeps
`raw.take k` and loses the `editing` class, a new editing line with
`raw.drop k` is inserted right after it, later lines are renumbered, and
the affected range re-renders. -/
def enterLines (render : RenderFn) (lines : List Line) (lineIdx k : Nat)
    (cur : Line) : List Line :=
  updateFrom (enterRerender render lineIdx) 0
    (updateFrom (enterRenumber lineIdx) 0
      (insertAt (lineIdx + 1)
        { index := lineIdx + 1, raw := cur.raw.drop k,
          rendered := cur.raw.drop k, editing := true }
        (setAt lineIdx
          { cur with raw := cur.raw.take k,
                     rendered := render (cur.raw.take k) false, editing := false }
          lines)))

/-- Model of `handleEnterKey` from `src/lib/editor/editor-keys.ts`: split the
current line at the caret, insert the tail as a new editing line, and
put the caret at raw offset 0 of the new line.  A missing current line
returns without action (`none`). -/
def handleEnterKey (render : RenderFn) (lines : List Line) (lineIdx k : Nat) :
    Option EditResult :=
  match lines[lineIdx]? with
  | none => none
  | some cur =>
    some { lines := enterLines render lines lineIdx k cur,
           cursorLine := lineIdx + 1, cursorOffset := 0 }

/-- The renumber loop of `handleBackspaceKey`. -/
def backspaceRenumber (lineIdx : Nat) : Nat → Line → Line :=
  fun pos l => if lineIdx ≤ pos then { l with index := pos } else l

/-- The batch re-render loop of `handleBackspaceKey`: lines from
`lineIdx - 1` on re-render, the merged line keeps the `editing` class. -/
def backspaceRerender (render : RenderFn) (lineIdx : Nat) : Nat → Line → Line :=
  fun pos l =>
    if lineIdx - 1 ≤ pos then
      { l with editing := pos == lineIdx - 1,
               rendered := render l.raw (pos == lineIdx - 1) }
    else l

/-- The line sequence after the merge branch of `handleBackspaceKey`:
the previous line takes `prev.raw ++ cur.raw`, the current line is
removed, later lines are renumbered, and the range from the merged line
re-renders. -/
def backspaceLines (render : RenderFn) (lines : List Line) (lineIdx : Nat)
    (cur prev : Line) : List Line :=
  updateFrom (backspaceRerender render lineIdx) 0
    (updateFrom (backspaceRenumber lineIdx) 0
      (eraseAt lineIdx
        (setAt (lineIdx - 1)
          { prev with raw := prev.raw ++ cur.raw,
                      rendered := render (prev.raw ++ cur.raw) true, editing := true }
          lines)))

/-- Model of `handleBackspaceKey` from `src/lib/editor/editor-keys.ts`, merge
branch (caret collapsed at raw offset 0 is the caller's precondition):
merge the current line into the previous one, drop the current line,
and place the caret at the merge point — `Math.min(mergePoint,
textLength)` against the displayed text of the merged editing line,
whose text is its raw text. -/
def handleBackspaceKey (render : RenderFn) (lines : List Line) (lineIdx : Nat) :
    Option EditResult :=
  if lineIdx = 0 then none
  else
    match lines[lineIdx]?, lines[lineIdx - 1]? with
    | some cur, some prev =>
      some { lines := backspaceLines render lines lineIdx cur prev,
             cursorLine := lineIdx - 1,
             cursorOffset := min prev.raw.length (prev.raw ++ cur.raw).length }
    | _, _ => none

/-- New `div`s of a multi-line paste: intermediate pasted lines become
plain lines, the last pasted line is concatenated with the text that was
after the caret and gets the `editing` class. -/
def buildPastedLines (render : RenderFn) : Nat → List Char → List (List Char) → List Line
  | _, _, [] => []
  | idx, after, [p] =>
    [{ index := idx, raw := p ++ after, rendered := render (p ++ after) true,
       editing := true }]
  | idx, after, p :: p2 :: rest =>
    { index := idx, raw := p, rendered := render p false, editing := false } ::
      buildPastedLines render (idx + 1) after (p2 :: rest)

/-- Insert a run of elements starting at a position. -/
def insertAllAt {α : Type _} (n : Nat) (xs : List α) (l : List α) : List α :=
  xs.foldr (fun x acc => insertAt n x acc) l

/-- The text branch of `handlePaste` from
`src/lib/editor/editor-events.ts`.  Empty clipboard text returns without
action.  A single-line paste (the split of the pasted text on `/\r?\n/`
has one piece) splices the text into the current line at the caret and
re-renders only that line; the caret lands right after the inserted
text, clamped against the displayed text of the editing line (its raw
text).  A multi-line paste splits the current line and inserts the
pasted lines, the last one editing. -/
def handlePasteText (render : RenderFn) (lines : List Line) (lineIdx k : Nat)
    (pasted : List Char) : Option EditResult :=
  if pasted = [] then none
  else
    match lines[lineIdx]? with
    | none => none
    | some cur =>
      match splitCRLF pasted with
      | [p0] =>
        some { lines :=
                 setAt lineIdx
                   { cur with
                       raw := cur.raw.take k ++ p0 ++ cur.raw.drop k,
                       rendered := render (cur.raw.take k ++ p0 ++ cur.raw.drop k) true,
                       editing := true }
                   lines,
               cursorLine := lineIdx,
               cursorOffset := min ((cur.raw.take k).length + p0.length)
                 (cur.raw.take k ++ p0 ++ cur.raw.drop k).length }
      | p0 :: ps1 =>
        some { lines :=
                 updateFrom
                   (fun pos l =>
                     if lineIdx ≤ pos then
                       { l with editing := pos == lineIdx + ps1.length,
                                rendered := render l.raw (pos == lineIdx + ps1.length) }
                     else l) 0
                   (updateFrom
                     (fun pos l =>
                       if lineIdx + ps1.length + 1 ≤ pos then { l with index := pos }
                       else l) 0
                     (insertAllAt (lineIdx + 1)
                       (buildPastedLines render (lineIdx + 1) (cur.raw.drop k) ps1)
                       (setAt lineIdx
                         { cur with raw := cur.raw.take k ++ p0,
                                    rendered := render (cur.raw.take k ++ p0) false,
                                    editing := false }
                         lines))),
               cursorLine := lineIdx + ps1.length,
               cursorOffset := min (ps1.getLastD []).length
                 ((ps1.getLastD []).length + (cur.raw.drop k).length) }
      | [] => none

/-- A paste with no newline splits into the single piece itself. -/
theorem splitCRLF_single {p : List Char} (h : '\n' ∉ p) : splitCRLF p = [p] := by
  induction p using splitCRLF.induct with
  | case1 => rfl
  | case2 => simp at h
  | case3 c hc => simp [splitCRLF, hc]
  | case4 c2 t ih => simp at h
  | case5 c c2 t hc hcr ih =>
    obtain ⟨hr, hn⟩ := hcr
    subst hn
    simp at h
  | case6 c c2 t hc hcr ih =>
    have hnotin : '\n' ∉ (c2 :: t) := by
      intro hx
      exact h (by simp [hx])
    have hsplit : splitCRLF (c :: c2 :: t) = withHead c (splitCRLF (c2 :: t)) := by
      simp [splitCRLF, hc, hcr]
    rw [hsplit, ih hnotin]
    rfl

theorem enterLines_length (render : RenderFn) (lines : List Line) (i k : Nat)
    (cur : Line) (hi : i < lines.length) :
    (enterLines render lines i k cur).length = lines.length + 1 := by
  unfold enterLines
  rw [length_updateFrom, length_updateFrom,
    length_insertAt _ (by rw [length_setAt]; omega), length_setAt]

theorem enterLines_getElem_lt (render : RenderFn) (lines : List Line) (i k : Nat)
    (cur : Line) {p : Nat} (hp : p < i) (hi : i < lines.length) :
    (enterLines render lines i k cur)[p]? = lines[p]? := by
  unfold enterLines
  rw [getElem?_updateFrom, getElem?_updateFrom,
    getElem?_insertAt_lt _ (by omega) (by rw [length_setAt]; omega),
    getElem?_setAt_ne _ _ (by omega)]
  cases lines[p]? with
  | none => rfl
  | some l =>
    have h1 : ¬ (i + 2 ≤ p) := by omega
    have h2 : ¬ (i ≤ p) := by omega
    simp [enterRenumber, enterRerender, h1, h2]

theorem enterLines_getElem_i (render : RenderFn) (lines : List Line) (i k : Nat)
    (cur : Line) (hi : i < lines.length) :
    (enterLines render lines i k cur)[i]? =
      some { cur with raw := cur.raw.take k,
                      rendered := render (cur.raw.take k) false, editing := false } := by
  unfold enterLines
  rw [getElem?_updateFrom, getElem?_updateFrom,
    getElem?_insertAt_lt _ (by omega) (by rw [length_setAt]; omega),
    getElem?_setAt_self _ hi]
  have hne : (i == i + 1) = false := by simp
  have h1 : ¬ (i + 2 ≤ i) := by omega
  simp [enterRenumber, enterRerender, hne, h1]

theorem enterLines_getElem_succ (render : RenderFn) (lines : List Line) (i k : Nat)
    (cur : Line) (hi : i < lines.length) :
    (enterLines render lines i k cur)[i + 1]? =
      some { index := i + 1, raw := cur.raw.drop k,
             rendered := render (cur.raw.drop k) true, editing := true } := by
  unfold enterLines
  rw [getElem?_updateFrom, getElem?_updateFrom,
    getElem?_insertAt_self _ (by rw [length_setAt]; omega)]
  have h1 : ¬ (i + 2 ≤ i + 1) := by omega
  simp [enterRenumber, enterRerender, h1]

theorem enterLines_getElem_ge (render : RenderFn) (lines : List Line) (i k : Nat)
    (cur : Line) {p : Nat} (hp : i + 2 ≤ p) :
    (enterLines render lines i k cur)[p]? =
      (lines[p - 1]?).map
        (fun l => { index := p, raw := l.raw,
                    rendered := render l.raw false, editing := false }) := by
  unfold enterLines
  rw [getElem?_updateFrom, getElem?_updateFrom,
    getElem?_insertAt_gt _ _ (by omega),
    getElem?_setAt_ne _ _ (by omega)]
  cases lines[p - 1]? with
  | none => rfl
  | some l =>
    have hne : (p == i + 1) = false := beq_eq_false_iff_ne.mpr (by omega)
    have h1 : i + 2 ≤ p := hp
    have h2 : i ≤ p := by omega
    simp [enterRenumber, enterRerender, hne, h1, h2]

theorem enterLines_map_raw (render : RenderFn) (lines : List Line) (i k : Nat)
    (cur : Line) :
    (enterLines render lines i k cur).map Line.raw =
      insertAt (i + 1) (cur.raw.drop k)
        (setAt i (cur.raw.take k) (lines.map Line.raw)) := by
  unfold enterLines
  rw [map_updateFrom Line.raw (by intro p l; unfold enterRerender; split <;> rfl),
    map_updateFrom Line.raw (by intro p l; unfold enterRenumber; split <;> rfl),
    map_insertAt, map_setAt]

/-- C2: `handleEnterKey` at line `i`, raw offset `k`, splits the line's
raw text at `k`: line `i` keeps `raw.take k` and is no longer editing, a
new editing line with `raw.drop k` appears at `i + 1`, all later lines
shift one position with their raw text intact and indices renumbered
(the document stays well-indexed), and the caret moves to raw offset 0
of the new line. -/
theorem enterSplitsLine (render : RenderFn) (lines : List Line) (i k : Nat)
    (cur : Line) (hget : lines[i]? = some cur) (hidx : wellIndexed lines = true) :
    ∃ res, handleEnterKey render lines i k = some res
      ∧ res.lines.length = lines.length + 1
      ∧ (res.lines[i]?).map (fun l => (l.raw, l.editing)) =
          some (cur.raw.take k, false)
      ∧ (res.lines[i + 1]?).map (fun l => (l.raw, l.editing)) =
          some (cur.raw.drop k, true)
      ∧ wellIndexed res.lines = true
      ∧ (∀ p, p < i → res.lines[p]? = lines[p]?)
      ∧ (∀ p, i + 2 ≤ p → (res.lines[p]?).map Line.raw = (lines[p - 1]?).map Line.raw)
      ∧ res.cursorLine = i + 1
      ∧ res.cursorOffset = 0 := by
  have hi : i < lines.length := lt_length_of_getElem? hget
  refine ⟨⟨enterLines render lines i k cur, i + 1, 0⟩,
    by unfold handleEnterKey; rw [hget], enterLines_length render lines i k cur hi,
    ?_, ?_, ?_, ?_, ?_, rfl, rfl⟩
  · rw [enterLines_getElem_i render lines i k cur hi]
    rfl
  · rw [enterLines_getElem_succ render lines i k cur hi]
    rfl
  · rw [wellIndexed_iff]
    intro p x hx
    rcases Nat.lt_or_ge p i with hp | hp
    · rw [enterLines_getElem_lt render lines i k cur hp hi] at hx
      exact (wellIndexed_iff lines).mp hidx p x hx
    · rcases Nat.eq_or_lt_of_le hp with hp2 | hp2
      · subst hp2
        rw [enterLines_getElem_i render lines i k cur hi] at hx
        have hc : cur.index = i := (wellIndexed_iff lines).mp hidx i cur hget
        rw [← Option.some.inj hx]
        exact hc
      · rcases Nat.eq_or_lt_of_le hp2 with hp3 | hp3
        · subst hp3
          rw [enterLines_getElem_succ render lines i k cur hi] at hx
          rw [← Option.some.inj hx]
        · rw [enterLines_getElem_ge render lines i k cur (by omega)] at hx
          obtain ⟨l, _, hl2⟩ := Option.map_eq_some'.mp hx
          rw [← hl2]
  · intro p hp
    exact enterLines_getElem_lt render lines i k cur hp hi
  · intro p hp
    rw [enterLines_getElem_ge render lines i k cur hp]
    cases lines[p - 1]? with
    | none => rfl
    | some l => rfl

/-- C2 witness: line `"hello world"`, caret at raw offset 5: line 0
becomes `"hello"`, line 1 is `" world"` and editing, the caret is at raw
offset 0 of line 1. -/
theorem enterSplitsLine_witness :
    ∃ res, handleEnterKey idRender
        [⟨0, "hello world".toList, "hello world".toList, true⟩] 0 5 = some res
      ∧ (res.lines[0]?).map (fun l => (l.raw, l.editing)) =
          some ("hello".toList, false)
      ∧ (res.lines[1]?).map (fun l => (l.raw, l.editing)) =
          some (" world".toList, true)
      ∧ res.cursorLine = 1
      ∧ res.cursorOffset = 0 := by
  obtain ⟨res, heq, hlen, hcur, hnew, hwi, hfr, hsh, hcl, hco⟩ :=
    enterSplitsLine idRender
      [⟨0, "hello world".toList, "hello world".toList, true⟩] 0 5
      ⟨0, "hello world".toList, "hello world".toList, true⟩ (by rfl) (by rfl)
  refine ⟨res, heq, ?_, ?_, hcl, hco⟩
  · rw [hcur]
    decide
  · rw [hnew]
    decide

theorem backspaceLines_length (render : RenderFn) (lines : List Line) (j : Nat)
    (cur prev : Line) (hj : j < lines.length) :
    (backspaceLines render lines j cur prev).length + 1 = lines.length := by
  unfold backspaceLines
  rw [length_updateFrom, length_updateFrom,
    length_eraseAt (by rw [length_setAt]; omega), length_setAt]

theorem backspaceLines_getElem_prev (render : RenderFn) (lines : List Line)
    (j : Nat) (cur prev : Line) (hj0 : j ≠ 0) (hj : j < lines.length) :
    (backspaceLines render lines j cur prev)[j - 1]? =
      some { prev with
             raw := prev.raw ++ cur.raw
             rendered := render (prev.raw ++ cur.raw) true
             editing := true } := by
  unfold backspaceLines
  rw [getElem?_updateFrom, getElem?_updateFrom,
    getElem?_eraseAt_lt _ (by omega),
    getElem?_setAt_self _ (by omega)]
  have h1 : ¬ (j ≤ j - 1) := by omega
  simp [backspaceRenumber, backspaceRerender, h1]

theorem backspaceLines_getElem_lt (render : RenderFn) (lines : List Line)
    (j : Nat) (cur prev : Line) {p : Nat} (hp : p < j - 1) :
    (backspaceLines render lines j cur prev)[p]? = lines[p]? := by
  unfold backspaceLines
  rw [getElem?_updateFrom, getElem?_updateFrom,
    getElem?_eraseAt_lt _ (by omega),
    getElem?_setAt_ne _ _ (by omega)]
  cases lines[p]? with
  | none => rfl
  | some l =>
    have h1 : ¬ (j ≤ p) := by omega
    have h2 : ¬ (j - 1 ≤ p) := by omega
    simp [backspaceRenumber, backspaceRerender, h1, h2]

theorem backspaceLines_getElem_ge (render : RenderFn) (lines : List Line)
    (j : Nat) (cur prev : Line) {p : Nat} (hp : j ≤ p) (hj0 : j ≠ 0) :
    (backspaceLines render lines j cur prev)[p]? =
      (lines[p + 1]?).map
        (fun l => { index := p, raw := l.raw,
                    rendered := render l.raw false, editing := false }) := by
  unfold backspaceLines
  rw [getElem?_updateFrom, getElem?_updateFrom,
    getElem?_eraseAt_ge _ (by omega),
    getElem?_setAt_ne _ _ (by omega)]
  cases lines[p + 1]? with
  | none => rfl
  | some l =>
    have hne : (p == j - 1) = false := beq_eq_false_iff_ne.mpr (by omega)
    have h1 : j ≤ p := hp
    have h2 : j - 1 ≤ p := by omega
    simp [backspaceRenumber, backspaceRerender, hne, h1, h2]

theorem backspaceLines_map_raw (render : RenderFn) (lines : List Line) (j : Nat)
    (cur prev : Line) :
    (backspaceLines render lines j cur prev).map Line.raw =
      eraseAt j (setAt (j - 1) (prev.raw ++ cur.raw) (lines.map Line.raw)) := by
  unfold backspaceLines
  rw [map_updateFrom Line.raw (by intro p l; unfold backspaceRerender; split <;> rfl),
    map_updateFrom Line.raw (by intro p l; unfold backspaceRenumber; split <;> rfl),
    map_eraseAt, map_setAt]

/-- C3: `handleBackspaceKey` with the collapsed caret at raw offset 0 of
line `i` (not the first line) concatenates the previous line's raw text
with the current line's raw text into the previous line, removes the
current line, shifts the later lines down one position with indices
renumbered (the document stays well-indexed), and places the caret at
raw offset `len(previousRaw)` of the merged line. -/
theorem backspaceMergesLines (render : RenderFn) (lines : List Line) (i : Nat)
    (cur prev : Line) (h0 : i ≠ 0) (hcur : lines[i]? = some cur)
    (hprev : lines[i - 1]? = some prev) (hidx : wellIndexed lines = true) :
    ∃ res, handleBackspaceKey render lines i = some res
      ∧ res.lines.length + 1 = lines.length
      ∧ (res.lines[i - 1]?).map Line.raw = some (prev.raw ++ cur.raw)
      ∧ wellIndexed res.lines = true
      ∧ (∀ p, p < i - 1 → res.lines[p]? = lines[p]?)
      ∧ (∀ p, i ≤ p → (res.lines[p]?).map Line.raw = (lines[p + 1]?).map Line.raw)
      ∧ res.cursorLine = i - 1
      ∧ res.cursorOffset = prev.raw.length := by
  have hi : i < lines.length := lt_length_of_getElem? hcur
  refine ⟨⟨backspaceLines render lines i cur prev, i - 1,
      min prev.raw.length (prev.raw ++ cur.raw).length⟩,
    by unfold handleBackspaceKey; rw [if_neg h0, hcur, hprev],
    backspaceLines_length render lines i cur prev hi, ?_, ?_, ?_, ?_, rfl, ?_⟩
  · rw [backspaceLines_getElem_prev render lines i cur prev h0 hi]
    rfl
  · rw [wellIndexed_iff]
    intro p x hx
    rcases Nat.lt_or_ge p (i - 1) with hp | hp
    · rw [backspaceLines_getElem_lt render lines i cur prev hp] at hx
      exact (wellIndexed_iff lines).mp hidx p x hx
    · rcases Nat.eq_or_lt_of_le hp with hp2 | hp2
      · subst hp2
        rw [backspaceLines_getElem_prev render lines i cur prev h0 hi] at hx
        have hc : prev.index = i - 1 := (wellIndexed_iff lines).mp hidx (i - 1) prev hprev
        rw [← Option.some.inj hx]
        exact hc
      · rw [backspaceLines_getElem_ge render lines i cur prev (by omega) h0] at hx
        obtain ⟨l, _, hl2⟩ := Option.map_eq_some'.mp hx
        rw [← hl2]
  · intro p hp
    exact backspaceLines_getElem_lt render lines i cur prev hp
  · intro p hp
    rw [backspaceLines_getElem_ge render lines i cur prev hp h0]
    cases lines[p + 1]? with
    | none => rfl
    | some l => rfl
  · show min prev.raw.length (prev.raw ++ cur.raw).length = prev.raw.length
    rw [List.length_append]
    omega

/-- C3 witness, the spec scenario: lines `["foo", "bar"]`, Backspace at
raw offset 0 of line 1 gives the single line `"foobar"` with the caret
at raw offset 3. -/
theorem backspaceMergesLines_witness :
    ∃ res, handleBackspaceKey idRender
        [⟨0, "foo".toList, "foo".toList, false⟩,
          ⟨1, "bar".toList, "bar".toList, true⟩] 1 = some res
      ∧ res.lines.length = 1
      ∧ (res.lines[0]?).map Line.raw = some ("foobar".toList)
      ∧ res.cursorLine = 0
      ∧ res.cursorOffset = 3 := by
  obtain ⟨res, heq, hlen, hraw, hwi, hfr, hsh, hcl, hco⟩ :=
    backspaceMergesLines idRender
      [⟨0, "foo".toList, "foo".toList, false⟩,
        ⟨1, "bar".toList, "bar".toList, true⟩] 1
      ⟨1, "bar".toList, "bar".toList, true⟩
      ⟨0, "foo".toList, "foo".toList, false⟩
      (by decide) (by rfl) (by rfl) (by rfl)
  refine ⟨res, heq, ?_, ?_, hcl, ?_⟩
  · simp only [List.length_cons, List.length_nil] at hlen
    omega
  · rw [hraw]
    rfl
  · rw [hco]
    rfl

/-- C4: splitting a line at raw offset `k` (Enter) and then merging
backward from the resulting second line (Backspace at raw offset 0)
reproduces the original raw text exactly — the whole document's raw
lines are restored, in particular the split line's. -/
theorem splitMergeInverse (render : RenderFn) (lines : List Line) (i k : Nat)
    (cur : Line) (hget : lines[i]? = some cur) (hk : k ≤ cur.raw.length) :
    ∃ r1 r2, handleEnterKey render lines i k = some r1
      ∧ handleBackspaceKey render r1.lines (i + 1) = some r2
      ∧ r2.lines.map Line.raw = lines.map Line.raw
      ∧ (r2.lines[i]?).map Line.raw = some cur.raw := by
  have hi : i < lines.length := lt_length_of_getElem? hget
  have hL1len : (enterLines render lines i k cur).length = lines.length + 1 :=
    enterLines_length render lines i k cur hi
  have hb : handleBackspaceKey render (enterLines render lines i k cur) (i + 1) =
      some { lines := backspaceLines render (enterLines render lines i k cur) (i + 1)
               { index := i + 1
                 raw := cur.raw.drop k
                 rendered := render (cur.raw.drop k) true
                 editing := true }
               { cur with
                 raw := cur.raw.take k
                 rendered := render (cur.raw.take k) false
                 editing := false }
             cursorLine := i
             cursorOffset := min (cur.raw.take k).length
               ((cur.raw.take k) ++ (cur.raw.drop k)).length } := by
    unfold handleBackspaceKey
    rw [if_neg (by omega), enterLines_getElem_succ render lines i k cur hi]
    have he : (enterLines render lines i k cur)[i + 1 - 1]? =
        some { cur with
               raw := cur.raw.take k
               rendered := render (cur.raw.take k) false
               editing := false } := by
      simpa using enterLines_getElem_i render lines i k cur hi
    rw [he]
    rfl
  have hraws : (backspaceLines render (enterLines render lines i k cur) (i + 1)
        { index := i + 1
          raw := cur.raw.drop k
          rendered := render (cur.raw.drop k) true
          editing := true }
        { cur with
          raw := cur.raw.take k
          rendered := render (cur.raw.take k) false
          editing := false }).map Line.raw =
      lines.map Line.raw := by
    rw [backspaceLines_map_raw]
    have hsimp : ((i + 1) - 1) = i := by omega
    rw [hsimp, enterLines_map_raw]
    have htd : (cur.raw.take k) ++ (cur.raw.drop k) = cur.raw :=
      List.take_append_drop k cur.raw
    show eraseAt (i + 1)
        (setAt i (cur.raw.take k ++ cur.raw.drop k)
          (insertAt (i + 1) (cur.raw.drop k)
            (setAt i (cur.raw.take k) (lines.map Line.raw)))) = lines.map Line.raw
    rw [htd]
    rw [setAt_insertAt_lt _ _ (by omega)
      (by rw [length_setAt, List.length_map]; omega)]
    rw [setAt_setAt]
    rw [eraseAt_insertAt _ (by rw [length_setAt, List.length_map]; omega)]
    rw [setAt_of_getElem? (by rw [List.getElem?_map, hget]; rfl)]
  refine ⟨⟨enterLines render lines i k cur, i + 1, 0⟩, _,
    by unfold handleEnterKey; rw [hget], hb, hraws, ?_⟩
  have h2 : ((backspaceLines render (enterLines render lines i k cur) (i + 1)
        { index := i + 1
          raw := cur.raw.drop k
          rendered := render (cur.raw.drop k) true
          editing := true }
        { cur with
          raw := cur.raw.take k
          rendered := render (cur.raw.take k) false
          editing := false }).map Line.raw)[i]? =
      (lines.map Line.raw)[i]? := by
    rw [hraws]
  rw [List.getElem?_map, List.getElem?_map, hget] at h2
  exact h2

/-- C4 witness: on the single line `"hello world"`, Enter at offset 5
followed by Backspace at offset 0 of line 1 restores `"hello world"`. -/
theorem splitMergeInverse_witness :
    ∃ r1 r2, handleEnterKey idRender
        [⟨0, "hello world".toList, "hello world".toList, true⟩] 0 5 = some r1
      ∧ handleBackspaceKey idRender r1.lines 1 = some r2
      ∧ r2.lines.map Line.raw = ["hello world".toList]
      ∧ (r2.lines[0]?).map Line.raw = some ("hello world".toList) := by
  obtain ⟨r1, r2, h1, h2, h3, h4⟩ := splitMergeInverse idRender
    [⟨0, "hello world".toList, "hello world".toList, true⟩] 0 5
    ⟨0, "hello world".toList, "hello world".toList, true⟩ (by rfl) (by decide)
  exact ⟨r1, r2, h1, h2, by rw [h3]; rfl, h4⟩

/-- C8: a single-line paste (no newline in the pasted text) at raw
offset `k` of line `i` splices the pasted text into that line's raw text
at `k`; every other line is left completely untouched (same raw,
rendered markup, index and editing state — only the pasted line
re-renders), the line count is unchanged, and the caret lands
immediately after the inserted text, at raw offset `k + len(pasted)`. -/
theorem pasteSingleLineSplices (render : RenderFn) (lines : List Line)
    (i k : Nat) (pasted : List Char) (cur : Line)
    (hget : lines[i]? = some cur) (hne : pasted ≠ []) (hnl : '\n' ∉ pasted)
    (hk : k ≤ cur.raw.length) :
    ∃ res, handlePasteText render lines i k pasted = some res
      ∧ (res.lines[i]?).map (fun l => (l.raw, l.editing)) =
          some (cur.raw.take k ++ pasted ++ cur.raw.drop k, true)
      ∧ (∀ p, p ≠ i → res.lines[p]? = lines[p]?)
      ∧ res.lines.length = lines.length
      ∧ res.cursorLine = i
      ∧ res.cursorOffset = k + pasted.length := by
  have hi : i < lines.length := lt_length_of_getElem? hget
  refine ⟨⟨setAt i
      { cur with
        raw := cur.raw.take k ++ pasted ++ cur.raw.drop k
        rendered := render (cur.raw.take k ++ pasted ++ cur.raw.drop k) true
        editing := true } lines, i,
      min ((cur.raw.take k).length + pasted.length)
        (cur.raw.take k ++ pasted ++ cur.raw.drop k).length⟩,
    by unfold handlePasteText; rw [if_neg hne, hget, splitCRLF_single hnl],
    ?_, ?_, length_setAt _ _ _, rfl, ?_⟩
  · rw [getElem?_setAt_self _ hi]
    rfl
  · intro p hp
    exact getElem?_setAt_ne _ _ hp
  · show min ((cur.raw.take k).length + pasted.length)
        (cur.raw.take k ++ pasted ++ cur.raw.drop k).length = k + pasted.length
    rw [List.length_append, List.length_append, List.length_take, List.length_drop]
    omega

/-- C8 witness: pasting `"XY"` at raw offset 2 of line 1 `"abcd"` (in a
two-line document) gives `"abXYcd"`, leaves line 0 untouched, and puts
the caret at raw offset 4. -/
theorem pasteSingleLineSplices_witness :
    ∃ res, handlePasteText idRender
        [⟨0, "zz".toList, "zz".toList, false⟩,
          ⟨1, "abcd".toList, "abcd".toList, true⟩] 1 2 ("XY".toList) = some res
      ∧ (res.lines[1]?).map (fun l => (l.raw, l.editing)) =
          some ("abXYcd".toList, true)
      ∧ res.lines[0]? = some ⟨0, "zz".toList, "zz".toList, false⟩
      ∧ res.cursorLine = 1
      ∧ res.cursorOffset = 4 := by
  obtain ⟨res, heq, hcur, hfr, hlen, hcl, hco⟩ :=
    pasteSingleLineSplices idRender
      [⟨0, "zz".toList, "zz".toList, false⟩,
        ⟨1, "abcd".toList, "abcd".toList, true⟩] 1 2 ("XY".toList)
      ⟨1, "abcd".toList, "abcd".toList, true⟩
      (by rfl) (by decide) (by decide) (by decide)
  refine ⟨res, heq, ?_, ?_, hcl, by rw [hco]; rfl⟩
  · rw [hcur]
    rfl
  · rw [hfr 0 (by decide)]
    rfl

/-- The KaTeX collaborator: a delimited expression's inner text (already
trimmed) and a display-mode flag give typeset markup, or `none` on
failure (`katex.renderToString` inside the `try`/`catch` of
`renderLatex`). -/
def KatexFn : Type := List Char → Bool → Option (List Char)

/-- A collaborator whose typesetting always fails. -/
def failKatex : KatexFn := fun _ _ => none

/-- Find the earliest `"$$"` in the list: `some (pre, post)` with the
input equal to `pre ++ "$$" ++ post` and no `"$$"` inside `pre`. -/
def findDollars : List Char → Option (List Char × List Char)
  | [] => none
  | c :: t =>
    if c = '$' ∧ t.head? = some '$' then some ([], t.tail)
    else (findDollars t).map (fun pq => (c :: pq.1, pq.2))

/-- The non-greedy body of `/\$\$([\s\S]+?)\$\$/` after an opening
`"$$"`: at least one content character, then the earliest closing
`"$$"`. -/
def findCloseDisp : List Char → Option (List Char × List Char)
  | [] => none
  | c :: t => (findDollars t).map (fun pq => (c :: pq.1, pq.2))

theorem findDollars_eq {l p q : List Char}
    (h : findDollars l = some (p, q)) : l = p ++ '$' :: '$' :: q := by
  induction l generalizing p q with
  | nil => cases h
  | cons c t ih =>
    unfold findDollars at h
    by_cases hc : c = '$' ∧ t.head? = some '$'
    · rw [if_pos hc] at h
      obtain ⟨hp, hq⟩ := Prod.mk.injEq .. ▸ Option.some.inj h
      obtain ⟨hc1, hc2⟩ := hc
      have ht : t = '$' :: t.tail := by
        cases t with
        | nil => cases hc2
        | cons a r => simp at hc2; rw [hc2]; rfl
      rw [← hp, ← hq, hc1]
      conv_lhs => rw [ht]
      rfl
    · rw [if_neg hc] at h
      obtain ⟨pq, hpq, hval⟩ := Option.map_eq_some'.mp h
      have := ih (p := pq.1) (q := pq.2) (by rw [hpq])
      rw [this]
      have hp : p = c :: pq.1 := by
        have := congrArg Prod.fst hval
        simpa using this.symm
      have hq : q = pq.2 := by
        have := congrArg Prod.snd hval
        simpa using this.symm
      rw [hp, hq]
      rfl

theorem findCloseDisp_eq {l p q : List Char}
    (h : findCloseDisp l = some (p, q)) : l = p ++ '$' :: '$' :: q ∧ p ≠ [] := by
  cases l with
  | nil => cases h
  | cons c t =>
    unfold findCloseDisp at h
    obtain ⟨pq, hpq, hval⟩ := Option.map_eq_some'.mp h
    have hrec := findDollars_eq (p := pq.1) (q := pq.2) (by rw [hpq])
    have hp : p = c :: pq.1 := by
      have := congrArg Prod.fst hval
      simpa using this.symm
    have hq : q = pq.2 := by
      have := congrArg Prod.snd hval
      simpa using this.symm
    constructor
    · rw [hp, hq, hrec]
      rfl
    · rw [hp]
      simp

/-- The display-math pass of `renderLatex`
(`text.replace(/\$\$([\s\S]+?)\$\$/g, ...)`), with explicit fuel (one
unit per scan step; `fuel = length` always suffices).  At an opening
`"$$"` with a closing `"$$"` after at least one content character, the
match is replaced by the collaborator's markup for the trimmed content,
or left exactly as matched when the collaborator fails; otherwise the
scan advances one character. -/
def replaceDisplayGo (or : KatexFn) : Nat → List Char → List Char
  | 0, l => l
  | _ + 1, [] => []
  | _ + 1, [c] => [c]
  | fuel + 1, c1 :: c2 :: rest =>
    if c1 = '$' ∧ c2 = '$' then
      match findCloseDisp rest with
      | some pq =>
        (match or (trim pq.1) true with
         | some r => r
         | none => '$' :: '$' :: (pq.1 ++ ['$', '$'])) ++
          replaceDisplayGo or fuel pq.2
      | none => c1 :: replaceDisplayGo or fuel (c2 :: rest)
    else c1 :: replaceDisplayGo or fuel (c2 :: rest)

/-- The display-math pass at full fuel. -/
def replaceDisplay (or : KatexFn) (l : List Char) : List Char :=
  replaceDisplayGo or l.length l

/-- Find the earliest `'$'`, failing on `'\n'` (the `[^\$\n]+?` body of
the inline pattern). -/
def findDollarOne : List Char → Option (List Char × List Char)
  | [] => none
  | c :: t =>
    if c = '$' then some ([], t)
    else if c = '\n' then none
    else (findDollarOne t).map (fun pq => (c :: pq.1, pq.2))

/-- The non-greedy body of `/\$([^\$\n]+?)\$/` after an opening `'$'`. -/
def findCloseInl : List Char → Option (List Char × List Char)
  | [] => none
  | c :: t =>
    if c = '$' ∨ c = '\n' then none
    else (findDollarOne t).map (fun pq => (c :: pq.1, pq.2))

theorem findDollarOne_eq {l p q : List Char}
    (h : findDollarOne l = some (p, q)) : l = p ++ '$' :: q := by
  induction l generalizing p q with
  | nil => cases h
  | cons c t ih =>
    unfold findDollarOne at h
    by_cases hc : c = '$'
    · rw [if_pos hc] at h
      obtain ⟨hp, hq⟩ := Prod.mk.injEq .. ▸ Option.some.inj h
      rw [← hp, ← hq, hc]
      rfl
    · rw [if_neg hc] at h
      by_cases hn : c = '\n'
      · rw [if_pos hn] at h
        cases h
      · rw [if_neg hn] at h
        obtain ⟨pq, hpq, hval⟩ := Option.map_eq_some'.mp h
        have := ih (p := pq.1) (q := pq.2) (by rw [hpq])
        rw [this]
        have hp : p = c :: pq.1 := by
          have := congrArg Prod.fst hval
          simpa using this.symm
        have hq : q = pq.2 := by
          have := congrArg Prod.snd hval
          simpa using this.symm
        rw [hp, hq]
        rfl

theorem findCloseInl_eq {l p q : List Char}
    (h : findCloseInl l = some (p, q)) : l = p ++ '$' :: q := by
  cases l with
  | nil => cases h
  | cons c t =>
    simp only [findCloseInl] at h
    by_cases hc : c = '$' ∨ c = '\n'
    · rw [if_pos hc] at h
      cases h
    · rw [if_neg hc] at h
      obtain ⟨pq, hpq, hval⟩ := Option.map_eq_some'.mp h
      have hrec := findDollarOne_eq (p := pq.1) (q := pq.2) (by rw [hpq])
      have hp : p = c :: pq.1 := by
        have := congrArg Prod.fst hval
        simpa using this.symm
      have hq : q = pq.2 := by
        have := congrArg Prod.snd hval
        simpa using this.symm
      rw [hp, hq, hrec]
      rfl

/-- The inline-math pass of `renderLatex`
(`text.replace(/\$([^\$\n]+?)\$/g, ...)`), with explicit fuel. -/
def replaceInlineGo (or : KatexFn) : Nat → List Char → List Char
  | 0, l => l
  | _ + 1, [] => []
  | fuel + 1, c :: rest =>
    if c = '$' then
      match findCloseInl rest with
      | some pq =>
        (match or (trim pq.1) false with
         | some r => r
         | none => '$' :: (pq.1 ++ ['$'])) ++ replaceInlineGo or fuel pq.2
      | none => c :: replaceInlineGo or fuel rest
    else c :: replaceInlineGo or fuel rest

/-- The inline-math pass at full fuel. -/
def replaceInline (or : KatexFn) (l : List Char) : List Char :=
  replaceInlineGo or l.length l

/-- Model of `renderLatex` from `src/lib/rendering.ts`: the display pass, then
the inline pass over its output.  Total by construction — every input
string yields an output string; failures of the collaborator never
escape. -/
def renderLatex (or : KatexFn) (text : List Char) : List Char :=
  replaceInline or (replaceDisplay or text)

theorem replaceDisplayGo_fail :
    ∀ (fuel : Nat) (l : List Char), l.length ≤ fuel →
      replaceDisplayGo failKatex fuel l = l := by
  intro fuel
  induction fuel with
  | zero =>
    intro l _
    rfl
  | succ fuel ih =>
    intro l hl
    rcases l with _ | ⟨c1, _ | ⟨c2, rest⟩⟩
    · rfl
    · rfl
    · by_cases hd : c1 = '$' ∧ c2 = '$'
      · cases hfc : findCloseDisp rest with
        | none =>
          simp only [replaceDisplayGo, if_pos hd, hfc]
          rw [ih (c2 :: rest) (by simp at hl ⊢; omega)]
        | some pq =>
          obtain ⟨hrec, hpne⟩ := findCloseDisp_eq (p := pq.1) (q := pq.2)
            (by rw [hfc])
          have hp1 : 1 ≤ pq.1.length := by
            cases hx : pq.1 with
            | nil => exact absurd hx hpne
            | cons a r => simp
          have hrl : rest.length = pq.1.length + 2 + pq.2.length := by
            rw [hrec]
            simp
            omega
          simp only [replaceDisplayGo, if_pos hd, hfc, failKatex]
          rw [ih pq.2 (by simp at hl; omega)]
          obtain ⟨h1, h2⟩ := hd
          rw [h1, h2]
          conv_rhs => rw [hrec]
          simp
      · simp only [replaceDisplayGo, if_neg hd]
        rw [ih (c2 :: rest) (by simp at hl ⊢; omega)]

theorem replaceInlineGo_fail :
    ∀ (fuel : Nat) (l : List Char), l.length ≤ fuel →
      replaceInlineGo failKatex fuel l = l := by
  intro fuel
  induction fuel with
  | zero =>
    intro l _
    rfl
  | succ fuel ih =>
    intro l hl
    rcases l with _ | ⟨c, rest⟩
    · rfl
    · by_cases hd : c = '$'
      · cases hfc : findCloseInl rest with
        | none =>
          simp only [replaceInlineGo, if_pos hd, hfc]
          rw [ih rest (by simp at hl; omega)]
        | some pq =>
          have hrec := findCloseInl_eq (p := pq.1) (q := pq.2) (by rw [hfc])
          have hrl : rest.length = pq.1.length + 1 + pq.2.length := by
            rw [hrec]
            simp
            omega
          simp only [replaceInlineGo, if_pos hd, hfc, failKatex]
          rw [ih pq.2 (by simp at hl; omega)]
          rw [hd]
          conv_rhs => rw [hrec]
          simp
      · simp only [replaceInlineGo, if_neg hd]
        rw [ih rest (by simp at hl; omega)]

/-- A collaborator that typesets only the expression `"b"` (as `"B"`)
and fails on everything else. -/
def demoKatex : KatexFn :=
  fun latex _ => if latex = "b".toList then some ("B".toList) else none

/-- C9: when typesetting fails, `renderLatex` leaves the original
delimited text of the failing expression unchanged — with an
always-failing collaborator it is the identity on every input, so no
failure ever escapes the boundary (the function is total and returns
the input text) — and the degradation is per expression: a collaborator
failing on `"a"` but typesetting `"b"` leaves `"$$a$$"` untouched while
still replacing `"$b$"` in the same text. -/
theorem renderLatexDegradesPerExpression :
    (∀ text : List Char, renderLatex failKatex text = text)
    ∧ renderLatex demoKatex ("$$a$$\n$b$".toList) = "$$a$$\nB".toList := by
  constructor
  · intro text
    unfold renderLatex replaceInline replaceDisplay
    rw [replaceDisplayGo_fail text.length text (Nat.le_refl _)]
    rw [replaceInlineGo_fail text.length text (Nat.le_refl _)]
  · decide

end MdEditor
